import Mathlib

/-!
Verification of the JetObsMC jet-observable library.

The Python source computes with IEEE doubles; we embed it shallowly over the
real numbers, with an explicit extended value type `EFloat` that records the
special values (signed infinities and NaN) the code produces on its
degenerate branches.  All definitions are transcribed from the Python source
(`jet_observables/fourvector.py`, `jet.py`, `observables/kinematics.py`,
`observables/shapes.py`, `observables/substructure.py`,
`jetobsmc/evaluation.py`); the rest-frame boost, whose source file is not in
the repository snapshot, is modelled from the specification and marked as
such.
-/

noncomputable section

open scoped Classical

namespace JetObsMC

/-- Extended floating-point value: a finite real, a signed infinity, or NaN.
This models the special values the NumPy code produces (for example
`np.sign(0.0) * np.inf` is NaN). -/
inductive EFloat where
  | val (x : ℝ)
  | posInf
  | negInf
  | nan

namespace EFloat

/-- Multiplication of a finite real scalar by an extended value, following
IEEE semantics: a zero scalar times an infinity is NaN. -/
def emul (c : ℝ) : EFloat → EFloat
  | val x => val (c * x)
  | posInf => if 0 < c then posInf else if c < 0 then negInf else nan
  | negInf => if 0 < c then negInf else if c < 0 then posInf else nan
  | nan => nan

/-- Subtraction of extended values, IEEE semantics: ∞ − ∞ is NaN and NaN
propagates. -/
def esub : EFloat → EFloat → EFloat
  | nan, _ => nan
  | _, nan => nan
  | val a, val b => val (a - b)
  | val _, posInf => negInf
  | val _, negInf => posInf
  | posInf, posInf => nan
  | posInf, _ => posInf
  | negInf, negInf => nan
  | negInf, _ => negInf

/-- Addition of extended values, IEEE semantics: ∞ + (−∞) is NaN and NaN
propagates. -/
def eadd : EFloat → EFloat → EFloat
  | nan, _ => nan
  | _, nan => nan
  | val a, val b => val (a + b)
  | val _, posInf => posInf
  | val _, negInf => negInf
  | posInf, negInf => nan
  | posInf, _ => posInf
  | negInf, posInf => nan
  | negInf, _ => negInf

/-- Sum of a list of extended values, folding IEEE addition from zero,
modelling `np.sum`. -/
def esum (l : List EFloat) : EFloat := l.foldl eadd (val 0)

/-- Euclidean norm `np.hypot` with an extended first argument and a finite
second argument: an infinite first argument gives +∞, NaN propagates. -/
def ehypot : EFloat → ℝ → EFloat
  | val a, y => val (Real.sqrt (a * a + y * y))
  | posInf, _ => posInf
  | negInf, _ => posInf
  | nan, _ => nan

/-- Binary minimum, modelling `np.minimum`: NaN propagates, infinities
compare normally. -/
def emin : EFloat → EFloat → EFloat
  | nan, _ => nan
  | _, nan => nan
  | val a, val b => val (min a b)
  | val a, posInf => val a
  | posInf, val b => val b
  | posInf, posInf => posInf
  | negInf, _ => negInf
  | _, negInf => negInf

/-- Minimum of a list of extended values (`np.min` along an axis); +∞ is the
fold identity, so on a non-empty list this is the genuine minimum. -/
def eminList (l : List EFloat) : EFloat := l.foldl emin posInf

/-- Division of an extended value by a finite real scalar (used only after
the code has checked the denominator is non-zero). -/
def ediv : EFloat → ℝ → EFloat
  | val x, c => val (x / c)
  | posInf, c => if 0 < c then posInf else if c < 0 then negInf else nan
  | negInf, c => if 0 < c then negInf else if c < 0 then posInf else nan
  | nan, _ => nan

/-- Power of an extended value by a finite real exponent, modelling NumPy
`**` on the values reachable here (finite non-negative bases, +∞, NaN);
NumPy defines any base to the power 0 as 1. -/
def epow : EFloat → ℝ → EFloat
  | val x, b => val (x ^ b)
  | posInf, b => if b = 0 then val 1 else if 0 < b then posInf else val 0
  | negInf, b =>
      if b = 0 then val 1 else if b = 1 then negInf else if 0 < b then posInf else val 0
  | nan, b => if b = 0 then val 1 else nan

theorem epow_one (e : EFloat) : epow e 1 = e := by
  cases e <;> simp [epow, Real.rpow_one]

end EFloat

/-- Numerical tolerance `EPS = 1e-12` from `fourvector.py`. -/
def EPS : ℝ := 1e-12

/-- Sign function `np.sign` on the reals. -/
def npSign (x : ℝ) : ℝ := if 0 < x then 1 else if x < 0 then -1 else 0

/-- Lorentz 4-vector in `(E, px, py, pz)` convention (`fourvector.py`). -/
structure FourVector where
  E : ℝ
  px : ℝ
  py : ℝ
  pz : ℝ

instance : Nonempty FourVector := ⟨⟨0, 0, 0, 0⟩⟩

namespace FourVector

/-- Minkowski dot product with signature `(+, -, -, -)`. -/
def dot (a b : FourVector) : ℝ :=
  a.E * b.E - a.px * b.px - a.py * b.py - a.pz * b.pz

/-- Invariant mass `m = sqrt(max(p·p, 0))`. -/
def mass (v : FourVector) : ℝ := Real.sqrt (max (v.dot v) 0)

/-- Transverse momentum `hypot(px, py)`. -/
def pt (v : FourVector) : ℝ := Real.sqrt (v.px * v.px + v.py * v.py)

/-- Pseudorapidity, transcribed from `FourVector.eta`:
`0.5 * ln((|p| + pz) / (|p| - pz))` with the degenerate branch returning
`float(np.sign(pz) * np.inf)`. -/
def eta (v : FourVector) : EFloat :=
  let p_abs := Real.sqrt (v.px * v.px + v.py * v.py + v.pz * v.pz)
  let numer := p_abs + v.pz
  let denom := p_abs - v.pz
  if |denom| < EPS ∨ numer ≤ 0 ∨ denom ≤ 0 then
    EFloat.emul (npSign v.pz) EFloat.posInf
  else
    EFloat.val (0.5 * Real.log (numer / denom))

end FourVector

/-- Four-quadrant arctangent `np.arctan2`, with `atan2 0 0 = 0`. -/
def atan2 (y x : ℝ) : ℝ :=
  if 0 < x then Real.arctan (y / x)
  else if x < 0 then
    (if 0 ≤ y then Real.arctan (y / x) + Real.pi else Real.arctan (y / x) - Real.pi)
  else
    (if 0 < y then Real.pi / 2 else if y < 0 then -(Real.pi / 2) else 0)

/-- Azimuthal angle `phi(v) = atan2(py, px)` from `fourvector.py`. -/
def FourVector.phi (v : FourVector) : ℝ := atan2 v.py v.px

/-- Body of the vectorized `eta_array` at one row: `eta_array` computes the
same expressions element-wise over the columns of the `(N, 4)` array, so one
row of the batch evaluates to exactly this. -/
def etaArrayRow (v : FourVector) : EFloat :=
  let p_abs := Real.sqrt (v.px * v.px + v.py * v.py + v.pz * v.pz)
  let numer := p_abs + v.pz
  let denom := p_abs - v.pz
  if |denom| < EPS ∨ numer ≤ 0 ∨ denom ≤ 0 then
    EFloat.emul (npSign v.pz) EFloat.posInf
  else
    EFloat.val (0.5 * Real.log (numer / denom))

/-- Vectorized pseudorapidity `eta_array` over an `(N, 4)` array,
transcribed from `fourvector.py`: all operations are element-wise. -/
def eta_array (vectors : List FourVector) : List EFloat :=
  vectors.map etaArrayRow

/-- Vectorized azimuth `phi_array` over an `(N, 4)` array. -/
def phi_array (vectors : List FourVector) : List ℝ :=
  vectors.map fun v => atan2 v.py v.px

/-- C1 counterexample: on the four-vector `(1, 0, 0, 0)` (so `pz = 0`) the
degenerate branch of `eta` is taken and `np.sign(0) * inf` evaluates to NaN,
not a signed infinity — refuting the claim that the degenerate branch never
yields NaN, including at `pz = 0`. -/
theorem C1_eta_counterexample :
    FourVector.eta ⟨1, 0, 0, 0⟩ = EFloat.nan ∧
      EFloat.nan ≠ EFloat.posInf ∧ EFloat.nan ≠ EFloat.negInf := by
  refine ⟨?_, by simp, by simp⟩
  have h0 : Real.sqrt ((0 : ℝ) * 0 + 0 * 0 + 0 * 0) = 0 := by
    norm_num
  simp only [FourVector.eta, h0]
  rw [if_pos]
  · simp [npSign, EFloat.emul]
  · left
    simp [EPS]
    norm_num

/-- C1 amended: for every four-vector, `eta` returns `0.5 * ln(numer/denom)`
on the regular branch, and on the degenerate branch
(`|denom| < 1e-12` or `numer ≤ 0` or `denom ≤ 0`) returns `sign(pz) · ∞`,
which is `+∞` when `pz > 0`, `−∞` when `pz < 0`, and NaN when `pz = 0`. -/
theorem C1_eta_amended (v : FourVector) :
    FourVector.eta v =
      (if |Real.sqrt (v.px * v.px + v.py * v.py + v.pz * v.pz) - v.pz| < EPS ∨
          Real.sqrt (v.px * v.px + v.py * v.py + v.pz * v.pz) + v.pz ≤ 0 ∨
          Real.sqrt (v.px * v.px + v.py * v.py + v.pz * v.pz) - v.pz ≤ 0 then
        (if 0 < v.pz then EFloat.posInf
         else if v.pz < 0 then EFloat.negInf
         else EFloat.nan)
      else
        EFloat.val (0.5 * Real.log
          ((Real.sqrt (v.px * v.px + v.py * v.py + v.pz * v.pz) + v.pz) /
           (Real.sqrt (v.px * v.px + v.py * v.py + v.pz * v.pz) - v.pz)))) := by
  simp only [FourVector.eta, npSign, EFloat.emul]
  split_ifs with hdeg h1 h2 <;> first | rfl | norm_num at *

/-- Floored modulo on the reals, modelling the NumPy and Python binary
operator on floats: the result has the sign of the divisor. -/
def npMod (x y : ℝ) : ℝ := x - y * Int.floor (x / y)

/-- Azimuthal wrap, transcribed from `kinematics.wrap_delta_phi`:
`(dphi + pi) % (2*pi) - pi`. -/
def wrap_delta_phi (dphi : ℝ) : ℝ :=
  npMod (dphi + Real.pi) (2 * Real.pi) - Real.pi

/-- Batched azimuthal wrap: the source applies one NumPy expression to the
whole array, whose element-wise semantics is the scalar formula per entry. -/
def wrap_delta_phi_array (dphi : List ℝ) : List ℝ :=
  dphi.map fun x => npMod (x + Real.pi) (2 * Real.pi) - Real.pi

theorem npMod_eq_fract (x y : ℝ) (hy : y ≠ 0) :
    npMod x y = y * Int.fract (x / y) := by
  unfold npMod Int.fract
  field_simp

/-- C2 counterexample: at the boundary input `pi` the wrap returns `-pi`,
not `pi`, so the range is not the claimed half-open interval `(-pi, pi]`. -/
theorem C2_wrap_counterexample :
    wrap_delta_phi Real.pi = -Real.pi ∧ -Real.pi ≠ Real.pi := by
  constructor
  · unfold wrap_delta_phi npMod
    have h1 : (Real.pi + Real.pi) / (2 * Real.pi) = 1 := by
      field_simp
      ring
    rw [h1, Int.floor_one]
    push_cast
    ring
  · intro h
    have := Real.pi_pos
    nlinarith

/-- C2 amended: `wrap_delta_phi(dphi) = ((dphi + pi) mod 2pi) - pi` lies in
the half-open interval `[-pi, pi)` (so the boundary value `pi` maps to
`-pi`), and the batched form agrees with the scalar form component-wise. -/
theorem C2_wrap_amended :
    (∀ x : ℝ, -Real.pi ≤ wrap_delta_phi x ∧ wrap_delta_phi x < Real.pi) ∧
      (∀ xs : List ℝ, wrap_delta_phi_array xs = xs.map wrap_delta_phi) := by
  constructor
  · intro x
    have h2pi : (2 * Real.pi) ≠ 0 := by positivity
    have hfr : wrap_delta_phi x =
        2 * Real.pi * Int.fract ((x + Real.pi) / (2 * Real.pi)) - Real.pi := by
      unfold wrap_delta_phi
      rw [npMod_eq_fract _ _ h2pi]
    have hlo : (0 : ℝ) ≤ Int.fract ((x + Real.pi) / (2 * Real.pi)) :=
      Int.fract_nonneg _
    have hhi : Int.fract ((x + Real.pi) / (2 * Real.pi)) < 1 :=
      Int.fract_lt_one _
    have hpi := Real.pi_pos
    constructor
    · rw [hfr]
      nlinarith
    · rw [hfr]
      nlinarith
  · intro xs
    rfl

/-- C4: the vectorized `eta_array` agrees element by element with the scalar
`FourVector.eta`, including on the degenerate signed-infinity/NaN branch, for
every `(N, 4)` input. -/
theorem C4_eta_array_refines_scalar (vectors : List FourVector) :
    eta_array vectors = vectors.map FourVector.eta := by
  unfold eta_array etaArrayRow FourVector.eta
  rfl

/-- Aggregate four-vector stored by the `Jet` constructor: the zero vector
for an empty constituent list, otherwise the column-wise sum
(`particles.sum(axis=0)`), from `jet.py`. -/
def jetAggregate (ps : List FourVector) : FourVector :=
  if ps = [] then ⟨0, 0, 0, 0⟩
  else
    ⟨(ps.map FourVector.E).sum, (ps.map FourVector.px).sum,
     (ps.map FourVector.py).sum, (ps.map FourVector.pz).sum⟩

/-- Pseudorapidity of a jet: `eta` of its aggregate (`Jet.eta`). -/
def jetEta (ps : List FourVector) : EFloat := (jetAggregate ps).eta

/-- Azimuth of a jet: `phi` of its aggregate (`Jet.phi`). -/
def jetPhi (ps : List FourVector) : ℝ := (jetAggregate ps).phi

/-- C10: an empty jet stores the zero aggregate four-vector; its `eta()` is
NaN (the degenerate branch computes `sign(0) * inf`) and its `phi()` is
`atan2(0, 0) = 0`. -/
theorem C10_empty_jet_eta_nan_phi_zero :
    jetAggregate [] = ⟨0, 0, 0, 0⟩ ∧
      jetEta [] = EFloat.nan ∧ jetPhi [] = 0 := by
  refine ⟨rfl, ?_, ?_⟩
  · show FourVector.eta ⟨0, 0, 0, 0⟩ = EFloat.nan
    have h0 : Real.sqrt ((0 : ℝ) * 0 + 0 * 0 + 0 * 0) = 0 := by norm_num
    simp only [FourVector.eta, h0]
    rw [if_pos]
    · simp [npSign, EFloat.emul]
    · left
      simp [EPS]
      norm_num
  · show FourVector.phi ⟨0, 0, 0, 0⟩ = 0
    simp [FourVector.phi, atan2]

/-- Detector-style constituent row `(pT, rapidity, azimuth, pdgid)`; these
fields are only compared against zero thresholds, so we use exact rationals
to keep the predicate decidable. -/
def PtYPhiPdg : Type := ℚ × ℚ × ℚ × ℚ

/-- Row predicate of `canonical_constituent_mask` from `evaluation.py`:
at least one feature exceeds `atol` in absolute value, the transverse
momentum exceeds `atol`, and the particle id is non-zero. -/
def canonicalRow (r : PtYPhiPdg) (atol : ℚ) : Bool :=
  (decide (|r.1| > atol) || decide (|r.2.1| > atol) ||
     decide (|r.2.2.1| > atol) || decide (|r.2.2.2| > atol)) &&
    decide (r.1 > atol) && decide (r.2.2.2 ≠ 0)

/-- Canonical mask over a padded `(pT, y, phi, pdgid)` array, transcribed
from `canonical_constituent_mask`: the three row conditions are computed
column-wise and conjoined. -/
def canonical_constituent_mask (particles : List PtYPhiPdg) (atol : ℚ) :
    List Bool :=
  particles.map fun r => canonicalRow r atol

/-- C9: with the default `atol = 0`, a row is kept iff some field is
non-zero, its transverse momentum is strictly positive and its particle id
is non-zero; on the spec's concrete padded input the mask is
`[true, false, true, false]`. -/
theorem C9_canonical_mask :
    (∀ r : PtYPhiPdg,
        canonicalRow r 0 = true ↔
          ((r.1 ≠ 0 ∨ r.2.1 ≠ 0 ∨ r.2.2.1 ≠ 0 ∨ r.2.2.2 ≠ 0) ∧
            0 < r.1 ∧ r.2.2.2 ≠ 0)) ∧
      canonical_constituent_mask
          [(80, 1/5, 1, 211), (0, 0, 0, 0), (12, -3/10, -6/5, 22),
            (0, 0, 0, 130)] 0 =
        [true, false, true, false] := by
  constructor
  · intro r
    simp [canonicalRow, abs_pos, and_assoc]
    tauto
  · decide

/-- Result of `np.asarray(particles, dtype=float)` by rank: the constructor
input may be a scalar, a flat list, a list of rows, or deeper nesting.  A
ragged list of rows is represented directly; `np.asarray` itself rejects it,
which the embedding folds into the constructor error below. -/
inductive NDArray where
  | scalar (x : ℝ)
  | one (xs : List ℝ)
  | two (xss : List (List ℝ))
  | three (xsss : List (List (List ℝ)))

/-- Column-wise accumulation of one length-4 row into a running aggregate
(`particles.sum(axis=0)` step). -/
def addRow (acc : FourVector) (r : List ℝ) : FourVector :=
  ⟨acc.E + r.getD 0 0, acc.px + r.getD 1 0, acc.py + r.getD 2 0,
    acc.pz + r.getD 3 0⟩

/-- Jet constructor, transcribed from `Jet.__init__` in `jet.py`: an empty
1-D input is reshaped to `(0, 4)`; any other input that is not a 2-D array
with 4 columns raises `ValueError`; on success the constituents are stored
and the aggregate is the zero four-vector when there are no rows and the
column-wise sum otherwise. -/
def jetInit : NDArray → Except String (List (List ℝ) × FourVector)
  | .scalar _ => .error "Expected particles as a 2D array with shape (N, 4)"
  | .one xs =>
      if xs = [] then .ok ([], ⟨0, 0, 0, 0⟩)
      else .error "Expected particles as a 2D array with shape (N, 4)"
  | .three _ => .error "Expected particles as a 2D array with shape (N, 4)"
  | .two xss =>
      if xss.all fun r => r.length = 4 then
        if xss = [] then .ok ([], ⟨0, 0, 0, 0⟩)
        else .ok (xss, xss.foldl addRow ⟨0, 0, 0, 0⟩)
      else .error "Expected particles with shape (N, 4)"

/-- Predicate: the input denotes an N-by-4 array of reals (an empty 1-D
array counts as the N = 0 case, as `np.asarray([])` has shape `(0,)` and is
reshaped by the constructor). -/
def isN4 : NDArray → Prop
  | .one xs => xs = []
  | .two xss => ∀ r ∈ xss, r.length = 4
  | _ => False

theorem foldl_addRow (xss : List (List ℝ)) :
    ∀ acc : FourVector,
      xss.foldl addRow acc =
        ⟨acc.E + (xss.map fun r => r.getD 0 0).sum,
         acc.px + (xss.map fun r => r.getD 1 0).sum,
         acc.py + (xss.map fun r => r.getD 2 0).sum,
         acc.pz + (xss.map fun r => r.getD 3 0).sum⟩ := by
  induction xss with
  | nil => intro acc; simp
  | cons r xss ih =>
      intro acc
      simp only [List.foldl_cons, ih, addRow, List.map_cons, List.sum_cons]
      congr 1 <;> ring

/-- C3: jet construction succeeds iff the input is an N-by-4 array (wrong
rank, wrong column count, and 1-D non-empty inputs all raise, while an
empty 1-D input is the N = 0 case); on success the stored aggregate is the
column-wise sum of the constituent rows, the zero four-vector when N = 0. -/
theorem C3_jet_construction :
    (∀ a : NDArray, (∃ j, jetInit a = .ok j) ↔ isN4 a) ∧
      (∀ xss : List (List ℝ), (∀ r ∈ xss, r.length = 4) →
        jetInit (.two xss) =
          .ok (xss,
            ⟨(xss.map fun r => r.getD 0 0).sum,
             (xss.map fun r => r.getD 1 0).sum,
             (xss.map fun r => r.getD 2 0).sum,
             (xss.map fun r => r.getD 3 0).sum⟩)) ∧
      jetInit (.one []) = .ok ([], ⟨0, 0, 0, 0⟩) := by
  have hok : ∀ xss : List (List ℝ), (∀ r ∈ xss, r.length = 4) →
      jetInit (.two xss) =
        .ok (xss,
          ⟨(xss.map fun r => r.getD 0 0).sum,
           (xss.map fun r => r.getD 1 0).sum,
           (xss.map fun r => r.getD 2 0).sum,
           (xss.map fun r => r.getD 3 0).sum⟩) := by
    intro xss h
    have hall : (xss.all fun r => r.length = 4) = true := by
      rw [List.all_eq_true]
      intro r hr
      exact decide_eq_true (h r hr)
    rcases eq_or_ne xss [] with he | he
    · subst he
      simp [jetInit]
    · simp only [jetInit, hall, if_true, if_neg he]
      rw [foldl_addRow]
      simp
  refine ⟨?_, hok, by simp [jetInit]⟩
  intro a
  cases a with
  | scalar x => simp [jetInit, isN4]
  | three xsss => simp [jetInit, isN4]
  | one xs =>
      rcases eq_or_ne xs [] with he | he
      · subst he; simp [jetInit, isN4]
      · simp [jetInit, isN4, he]
  | two xss =>
      constructor
      · rintro ⟨j, hj⟩
        simp only [jetInit] at hj
        by_cases hall : (xss.all fun r => r.length = 4) = true
        · intro r hr
          exact of_decide_eq_true (List.all_eq_true.mp hall r hr)
        · rw [if_neg hall] at hj
          exact absurd hj (by simp)
      · intro h
        exact ⟨_, hok xss h⟩

/-- C3 witness: the two-row input `[[4,1,0,1],[3,0,2,1]]` constructs
successfully with aggregate `(7, 1, 2, 2)`, and the empty 1-D input
constructs the empty jet with zero aggregate. -/
theorem C3_jet_construction_witness :
    jetInit (.two [[4, 1, 0, 1], [3, 0, 2, 1]]) =
        .ok ([[4, 1, 0, 1], [3, 0, 2, 1]], ⟨7, 1, 2, 2⟩) ∧
      jetInit (.one []) = .ok ([], ⟨0, 0, 0, 0⟩) := by
  constructor
  · have h := C3_jet_construction.2.1 [[4, 1, 0, 1], [3, 0, 2, 1]]
      (by intro r hr; simp at hr; rcases hr with h | h <;> simp [h])
    rw [h]
    norm_num
  · exact C3_jet_construction.2.2

theorem wrap_eq_fract (d : ℝ) :
    wrap_delta_phi d =
      2 * Real.pi * Int.fract ((d + Real.pi) / (2 * Real.pi)) - Real.pi := by
  unfold wrap_delta_phi
  rw [npMod_eq_fract _ _ (by positivity)]

theorem wrap_neg_mul_self (d : ℝ) :
    wrap_delta_phi (-d) * wrap_delta_phi (-d) =
      wrap_delta_phi d * wrap_delta_phi d := by
  have hu : (-d + Real.pi) / (2 * Real.pi) =
      -((d + Real.pi) / (2 * Real.pi)) + (1 : ℤ) := by
    push_cast
    field_simp
    ring
  set u := (d + Real.pi) / (2 * Real.pi) with hu_def
  have hfr : Int.fract ((-d + Real.pi) / (2 * Real.pi)) = Int.fract (-u) := by
    rw [hu, Int.fract_add_int]
  by_cases h0 : Int.fract u = 0
  · have h0n : Int.fract (-u) = 0 := by
      rcases Int.fract_eq_iff.mp h0 with ⟨-, -, z, hz⟩
      rw [sub_zero] at hz
      have h1 : -u = ((-z : ℤ) : ℝ) := by rw [hz]; push_cast; ring
      rw [h1]
      exact Int.fract_intCast (-z)
    rw [wrap_eq_fract, wrap_eq_fract, hfr, h0n, ← hu_def, h0]
  · have hneg : Int.fract (-u) = 1 - Int.fract u := Int.fract_neg h0
    rw [wrap_eq_fract, wrap_eq_fract, hfr, hneg, ← hu_def]
    ring

theorem ehypot_esub_swap (e f : EFloat) (d : ℝ) :
    EFloat.ehypot (EFloat.esub e f) (wrap_delta_phi d) =
      EFloat.ehypot (EFloat.esub f e) (wrap_delta_phi (-d)) := by
  have hw := wrap_neg_mul_self d
  cases e <;> cases f <;>
    (simp only [EFloat.esub, EFloat.ehypot]
     try rfl
     try (congr 1
          congr 1
          linear_combination -hw))

/-- Angular separation of two jets, transcribed from `kinematics.delta_r`:
`hypot(eta_a - eta_b, wrap_delta_phi(phi_a - phi_b))` on the aggregate
pseudorapidities (extended values) and azimuths. -/
def delta_r (jet_a jet_b : List FourVector) : EFloat :=
  EFloat.ehypot (EFloat.esub (jetEta jet_a) (jetEta jet_b))
    (wrap_delta_phi (jetPhi jet_a - jetPhi jet_b))

/-- C7: delta_r is exactly symmetric in its two jets, including at the
azimuthal wrapping boundary, and including jets whose aggregate
pseudorapidity is infinite or NaN (both orders then produce the identical
special value). -/
theorem C7_delta_r_symmetric (A B : List FourVector) :
    delta_r A B = delta_r B A := by
  unfold delta_r
  rw [ehypot_esub_swap, neg_sub]

/-- Euclidean norm `np.hypot` on two finite reals. -/
def hypotR (x y : ℝ) : ℝ := Real.sqrt (x * x + y * y)

/-- Per-constituent transverse momenta, transcribed from
`_constituent_pts`: `np.hypot(particles[:, 1], particles[:, 2])`. -/
def constituent_pts (ps : List FourVector) : List ℝ :=
  ps.map fun p => hypotR p.px p.py

/-- Angular distances of each constituent to the jet axis, the shared
computation of the shape observables: `np.hypot(etas - jet.eta(),
wrap_delta_phi(phis - jet.phi()))`. -/
def constituentDr (ps : List FourVector) : List EFloat :=
  List.zipWith
    (fun e d => EFloat.ehypot (EFloat.esub e (jetEta ps)) d)
    (eta_array ps)
    ((phi_array ps).map fun x => wrap_delta_phi (x - jetPhi ps))

/-- Jet width, transcribed from `shapes.jet_width`:
`sum_i pT_i * DeltaR_i / sum_i pT_i`, with 0 for an empty jet or a zero pT
sum. -/
def jet_width (ps : List FourVector) : EFloat :=
  if ps.length = 0 then EFloat.val 0
  else
    let pts := constituent_pts ps
    let denom := pts.sum
    if denom = 0 then EFloat.val 0
    else
      EFloat.ediv (EFloat.esum (List.zipWith EFloat.emul pts (constituentDr ps)))
        denom

/-- Generalized radial moment, transcribed from `shapes.radial_moment`:
`sum_i pT_i * (DeltaR_i ** beta) / sum_i pT_i`, with the same degenerate
policy as the width. -/
def radial_moment (ps : List FourVector) (beta : ℝ) : EFloat :=
  if ps.length = 0 then EFloat.val 0
  else
    let pts := constituent_pts ps
    let denom := pts.sum
    if denom = 0 then EFloat.val 0
    else
      EFloat.ediv
        (EFloat.esum (List.zipWith EFloat.emul pts
          ((constituentDr ps).map fun x => EFloat.epow x beta)))
        denom

/-- C8: the jet width equals the radial moment at beta = 1 on every
constituent list (NumPy `x ** 1.0` is the identity on every value,
including infinities and NaN), and both return 0 for an empty jet or a zero
constituent pT sum instead of raising. -/
theorem C8_width_is_radial_moment_beta_one :
    (∀ ps : List FourVector, jet_width ps = radial_moment ps 1) ∧
      jet_width [] = EFloat.val 0 ∧ radial_moment [] 1 = EFloat.val 0 ∧
      (∀ ps : List FourVector, (constituent_pts ps).sum = 0 →
        jet_width ps = EFloat.val 0 ∧ radial_moment ps 1 = EFloat.val 0) := by
  have hmap : ∀ ps : List FourVector,
      ((constituentDr ps).map fun x => EFloat.epow x 1) = constituentDr ps := by
    intro ps
    simp [EFloat.epow_one]
  refine ⟨?_, by simp [jet_width], by simp [radial_moment], ?_⟩
  · intro ps
    unfold jet_width radial_moment
    rw [hmap]
  · intro ps h
    rcases eq_or_ne ps.length 0 with hn | hn
    · constructor <;> simp [jet_width, radial_moment, hn]
    · constructor <;> simp [jet_width, radial_moment, hn, h]

/-- C8 witness: a single beam-axis constituent has zero transverse momentum,
so both the width and the beta = 1 radial moment evaluate to 0 via the
zero-denominator policy. -/
theorem C8_width_witness :
    jet_width [(⟨1, 0, 0, 1⟩ : FourVector)] = EFloat.val 0 ∧
      radial_moment [(⟨1, 0, 0, 1⟩ : FourVector)] 1 = EFloat.val 0 := by
  apply C8_width_is_radial_moment_beta_one.2.2.2
  simp [constituent_pts, hypotR]

/-- Stable insertion of index `i` into an index list sorted by ascending
value of `xs`. -/
def insortIdx (xs : List ℝ) (i : ℕ) : List ℕ → List ℕ
  | [] => [i]
  | j :: rest =>
      if xs.getD i 0 < xs.getD j 0 then i :: j :: rest
      else j :: insortIdx xs i rest

/-- Index sort `np.argsort(xs)`: indices of `xs` in ascending order of
value (ties keep the earlier index first; NumPy leaves tie order
unspecified). -/
def argsort (xs : List ℝ) : List ℕ :=
  (List.range xs.length).foldr (insortIdx xs) []

/-- Indices of the `k` largest entries, `np.argsort(pts)[-n_axes:]`. -/
def topIdx (xs : List ℝ) (k : ℕ) : List ℕ :=
  (argsort xs).drop (xs.length - k)

/-- Per-constituent minimum angular distance to the selected axes,
transcribed from the matrix block of `_tau_n_proxy`: the `(N, k)` distance
matrix `hypot(etas[:,None] - axis_eta, wrap(phis[:,None] - axis_phi))`
followed by `np.min(.., axis=1)`. -/
def tauDrMin (ps : List FourVector) (nAxes : ℕ) : List EFloat :=
  let etas := eta_array ps
  let phis := phi_array ps
  let axis_idx := topIdx (constituent_pts ps) nAxes
  let axis_eta := axis_idx.map fun i => etas.getD i EFloat.nan
  let axis_phi := axis_idx.map fun i => phis.getD i 0
  List.zipWith
    (fun e p =>
      EFloat.eminList (List.zipWith
        (fun ae ap => EFloat.ehypot (EFloat.esub e ae) (wrap_delta_phi (p - ap)))
        axis_eta axis_phi))
    etas phis

/-- N-subjettiness proxy, transcribed from `_tau_n_proxy` in
`substructure.py`: 0 for no constituents, an error for a non-positive axis
count, 0 when there are at least as many axes as constituents, 0 when the
scalar pT sum vanishes, and otherwise `sum(pts * dr_min)` over the top-pT
axes. -/
def tau_n_proxy (ps : List FourVector) (n_axes : ℕ) : Except String EFloat :=
  if ps.length = 0 then .ok (EFloat.val 0)
  else if n_axes = 0 then .error "n_axes must be positive"
  else if ps.length ≤ n_axes then .ok (EFloat.val 0)
  else if (constituent_pts ps).sum = 0 then .ok (EFloat.val 0)
  else
    .ok (EFloat.esum
      (List.zipWith EFloat.emul (constituent_pts ps) (tauDrMin ps n_axes)))

/-- Basic tau1 proxy (`nsubjettiness_tau1`). -/
def nsubjettiness_tau1 (ps : List FourVector) : Except String EFloat :=
  tau_n_proxy ps 1

/-- Basic tau2 proxy (`nsubjettiness_tau2`). -/
def nsubjettiness_tau2 (ps : List FourVector) : Except String EFloat :=
  tau_n_proxy ps 2

/-- Basic tau3 proxy (`nsubjettiness_tau3`). -/
def nsubjettiness_tau3 (ps : List FourVector) : Except String EFloat :=
  tau_n_proxy ps 3

/-- Value asserted by the claim for the non-trivial branch, written from the
spec wording: for every constituent, the minimum angular distance to any of
the `k` highest-pT axes, weighted by the constituent pT and summed. -/
def tauSpecFormula (ps : List FourVector) (k : ℕ) : EFloat :=
  let pts := constituent_pts ps
  let etas := eta_array ps
  let phis := phi_array ps
  let axes := topIdx pts k
  EFloat.esum ((List.range ps.length).map fun i =>
    EFloat.emul (pts.getD i 0)
      (EFloat.eminList (axes.map fun a =>
        EFloat.ehypot
          (EFloat.esub (etas.getD i EFloat.nan) (etas.getD a EFloat.nan))
          (wrap_delta_phi (phis.getD i 0 - phis.getD a 0)))))

/-- Behaviour asserted by the claim: 0 below multiplicity `k + 1`, the
weighted minimum-distance sum otherwise. -/
def tauSpec (ps : List FourVector) (k : ℕ) : EFloat :=
  if ps.length < k + 1 then EFloat.val 0 else tauSpecFormula ps k

/-- The claim amended by the zero-pT-sum policy the code (and spec §7)
applies: 0 below multiplicity `k + 1`, 0 when the scalar pT sum vanishes,
the weighted minimum-distance sum otherwise. -/
def tauSpecAmended (ps : List FourVector) (k : ℕ) : EFloat :=
  if ps.length < k + 1 then EFloat.val 0
  else if (constituent_pts ps).sum = 0 then EFloat.val 0
  else tauSpecFormula ps k

theorem tau_formula_eq (ps : List FourVector) (k : ℕ) :
    EFloat.esum (List.zipWith EFloat.emul (constituent_pts ps) (tauDrMin ps k)) =
      tauSpecFormula ps k := by
  unfold tauSpecFormula
  congr 1
  apply List.ext_getElem
  · simp [tauDrMin, constituent_pts, eta_array, phi_array]
  · intro i h1 h2
    have hn : i < ps.length := by
      simpa [tauDrMin, constituent_pts, eta_array, phi_array] using h1
    have hnp : i < (constituent_pts ps).length := by
      simpa [constituent_pts] using hn
    have hne2 : i < (eta_array ps).length := by
      simpa [eta_array] using hn
    have hnph : i < (phi_array ps).length := by
      simpa [phi_array] using hn
    simp only [List.getElem_map, List.getElem_range, List.getElem_zipWith]
    rw [List.getD_eq_getElem _ _ hnp, List.getD_eq_getElem _ _ hne2,
      List.getD_eq_getElem _ _ hnph]
    congr 1
    simp only [tauDrMin, List.getElem_zipWith]
    congr 1
    apply List.ext_getElem
    · simp
    · intro a ha1 ha2
      simp only [List.getElem_zipWith, List.getElem_map]

/-- C6 counterexample: the jet with the two beam-axis constituents
`(1,0,0,1)` and `(1,0,0,-1)` has 2 ≥ k+1 constituents for k = 1, yet the
code returns 0 through its zero-pT-sum guard while the claimed
top-axis/minimum-distance formula evaluates to NaN (every constituent pT is
0 and the pseudorapidities are infinite). -/
theorem C6_tau_counterexample :
    tau_n_proxy [(⟨1, 0, 0, 1⟩ : FourVector), ⟨1, 0, 0, -1⟩] 1 =
        .ok (EFloat.val 0) ∧
      tauSpec [(⟨1, 0, 0, 1⟩ : FourVector), ⟨1, 0, 0, -1⟩] 1 = EFloat.nan ∧
      EFloat.val 0 ≠ EFloat.nan := by
  have hpts : constituent_pts [(⟨1, 0, 0, 1⟩ : FourVector), ⟨1, 0, 0, -1⟩] =
      [0, 0] := by
    simp [constituent_pts, hypotR]
  have hsq1 : Real.sqrt ((0 : ℝ) * 0 + 0 * 0 + 1 * 1) = 1 := by
    norm_num
  have hsq2 : Real.sqrt ((0 : ℝ) * 0 + 0 * 0 + -1 * -1) = 1 := by
    norm_num
  have heta1 : etaArrayRow ⟨1, 0, 0, 1⟩ = EFloat.posInf := by
    simp only [etaArrayRow, hsq1]
    rw [if_pos]
    · norm_num [npSign, EFloat.emul]
    · left
      rw [show |(1 : ℝ) - 1| = 0 by norm_num]
      norm_num [EPS]
  have heta2 : etaArrayRow ⟨1, 0, 0, -1⟩ = EFloat.negInf := by
    simp only [etaArrayRow, hsq2]
    rw [if_pos]
    · norm_num [npSign, EFloat.emul]
    · right; left
      norm_num
  have hargsort : argsort [(0 : ℝ), 0] = [1, 0] := by
    show insortIdx [(0 : ℝ), 0] 0 (insortIdx [(0 : ℝ), 0] 1 []) = [1, 0]
    norm_num [insortIdx]
  refine ⟨?_, ?_, by simp⟩
  · unfold tau_n_proxy
    rw [hpts]
    norm_num
  · unfold tauSpec
    rw [if_neg (by norm_num)]
    unfold tauSpecFormula topIdx
    rw [hpts]
    simp only [hargsort, List.length_cons, List.length_nil,
      show (2 : ℕ) - 1 = 1 by norm_num, List.drop_succ_cons, List.drop_zero,
      show List.range 2 = [0, 1] from rfl, List.map_cons, List.map_nil,
      eta_array, phi_array, heta1, heta2, List.getD_cons_zero,
      List.getD_cons_succ]
    norm_num [EFloat.esum, EFloat.eadd, EFloat.emul, EFloat.eminList,
      EFloat.emin, EFloat.esub, EFloat.ehypot, atan2]

/-- C6 amended: for every jet and every positive axis count k, the proxy
returns 0 when the jet has fewer than k+1 constituents, 0 when the scalar
constituent pT sum is 0, and otherwise the claimed sum of constituent pT
times minimum angular distance to the k highest-pT axes; tau1/tau2/tau3 are
the k = 1, 2, 3 instances. -/
theorem C6_tau_amended :
    (∀ (ps : List FourVector) (k : ℕ), 1 ≤ k →
        tau_n_proxy ps k = .ok (tauSpecAmended ps k)) ∧
      (∀ ps : List FourVector,
        nsubjettiness_tau1 ps = tau_n_proxy ps 1 ∧
          nsubjettiness_tau2 ps = tau_n_proxy ps 2 ∧
          nsubjettiness_tau3 ps = tau_n_proxy ps 3) := by
  refine ⟨?_, fun ps => ⟨rfl, rfl, rfl⟩⟩
  intro ps k hk
  unfold tau_n_proxy tauSpecAmended
  by_cases h0 : ps.length = 0
  · simp [h0]
  · have hk0 : k ≠ 0 := by omega
    rw [if_neg h0, if_neg hk0]
    by_cases hle : ps.length ≤ k
    · have hlt : ps.length < k + 1 := by omega
      rw [if_pos hle, if_pos hlt]
    · have hlt : ¬ps.length < k + 1 := by omega
      rw [if_neg hle, if_neg hlt]
      by_cases hs : (constituent_pts ps).sum = 0
      · rw [if_pos hs, if_pos hs]
      · rw [if_neg hs, if_neg hs]
        exact congrArg Except.ok (tau_formula_eq ps k)

/-- C6 amended witness: a single-constituent jet with k = 1 axes falls below
the k+1 multiplicity threshold, and the proxy agrees with the amended
specification value there. -/
theorem C6_tau_amended_witness :
    tau_n_proxy [(⟨2, 1, 0, 0⟩ : FourVector)] 1 =
      .ok (tauSpecAmended [(⟨2, 1, 0, 0⟩ : FourVector)] 1) :=
  C6_tau_amended.1 [⟨2, 1, 0, 0⟩] 1 (by norm_num)

/-- Sum of the energies of a list of four-vectors. -/
def sumE (ps : List FourVector) : ℝ := (ps.map FourVector.E).sum

/-- Sum of the x-momenta of a list of four-vectors. -/
def sumPx (ps : List FourVector) : ℝ := (ps.map FourVector.px).sum

/-- Sum of the y-momenta of a list of four-vectors. -/
def sumPy (ps : List FourVector) : ℝ := (ps.map FourVector.py).sum

/-- Sum of the z-momenta of a list of four-vectors. -/
def sumPz (ps : List FourVector) : ℝ := (ps.map FourVector.pz).sum

/-- Modelled from the spec: the module defining the rest-frame boost
(`boost_to_jet_rest_frame` in the `jetobsmc` four-vector file) is not in
the repository snapshot — only its import in `jet.py` is.  Per §4.2, the
boost velocity is the aggregate three-momentum divided by the aggregate
energy; this is its x-component. -/
def boostBx (ps : List FourVector) : ℝ := sumPx ps / sumE ps

/-- Modelled from the spec: y-component of the boost velocity. -/
def boostBy (ps : List FourVector) : ℝ := sumPy ps / sumE ps

/-- Modelled from the spec: z-component of the boost velocity. -/
def boostBz (ps : List FourVector) : ℝ := sumPz ps / sumE ps

/-- Modelled from the spec: squared magnitude of the boost velocity. -/
def boostB2 (ps : List FourVector) : ℝ :=
  boostBx ps * boostBx ps + boostBy ps * boostBy ps + boostBz ps * boostBz ps

/-- Modelled from the spec: the Lorentz factor `1/sqrt(1 - |beta|^2)`, with
`|beta|^2` clamped below 1 by the margin `1e-10` so the boost stays finite
in the near-lightlike regime (the spec prescribes a clamp but no value). -/
def boostGamma (ps : List FourVector) : ℝ :=
  1 / Real.sqrt (1 - min (boostB2 ps) (1 - 1e-10))

/-- Modelled from the spec: inner product of the boost velocity with a
constituent three-momentum. -/
def boostBp (ps : List FourVector) (p : FourVector) : ℝ :=
  boostBx ps * p.px + boostBy ps * p.py + boostBz ps * p.pz

/-- Modelled from the spec: the scalar in
`p' = p + beta * [(gamma - 1)(beta . p)/|beta|^2 - gamma E]`. -/
def boostCoef (ps : List FourVector) (p : FourVector) : ℝ :=
  (boostGamma ps - 1) * boostBp ps p / boostB2 ps - boostGamma ps * p.E

/-- Modelled from the spec (§4.2, `boost_to_jet_rest_frame`): empty input
returns an empty result; a jet already at rest (`|beta| = 0`) is returned
unchanged; otherwise every constituent is boosted by
`E' = gamma (E - beta . p)` and
`p' = p + beta [(gamma - 1)(beta . p)/|beta|^2 - gamma E]`. -/
def boost_to_jet_rest_frame (ps : List FourVector) : List FourVector :=
  if ps = [] then []
  else if boostB2 ps = 0 then ps
  else
    ps.map fun p =>
      ⟨boostGamma ps * (p.E - boostBp ps p),
       p.px + boostBx ps * boostCoef ps p,
       p.py + boostBy ps * boostCoef ps p,
       p.pz + boostBz ps * boostCoef ps p⟩

/-- Modelled from the spec: the helper exposing the magnitude of the summed
three-momentum after the rest-frame boost, exactly 0 for an empty input. -/
def rest_frame_momentum_residual (ps : List FourVector) : ℝ :=
  if ps = [] then 0
  else
    Real.sqrt
      (sumPx (boost_to_jet_rest_frame ps) * sumPx (boost_to_jet_rest_frame ps) +
       sumPy (boost_to_jet_rest_frame ps) * sumPy (boost_to_jet_rest_frame ps) +
       sumPz (boost_to_jet_rest_frame ps) * sumPz (boost_to_jet_rest_frame ps))

theorem sum_map_linear (ps : List FourVector) (cE cx cy cz : ℝ) :
    (ps.map fun p => cE * p.E + cx * p.px + cy * p.py + cz * p.pz).sum =
      cE * sumE ps + cx * sumPx ps + cy * sumPy ps + cz * sumPz ps := by
  induction ps with
  | nil => simp [sumE, sumPx, sumPy, sumPz]
  | cons p ps ih =>
      simp only [List.map_cons, List.sum_cons, ih, sumE, sumPx, sumPy, sumPz]
      ring

theorem boostB2_eq (ps : List FourVector) (hE0 : sumE ps ≠ 0) :
    boostB2 ps =
      (sumPx ps * sumPx ps + sumPy ps * sumPy ps + sumPz ps * sumPz ps) /
        (sumE ps * sumE ps) := by
  unfold boostB2 boostBx boostBy boostBz
  field_simp

theorem boost_sums (ps : List FourVector) (hne : ps ≠ [])
    (hE0 : sumE ps ≠ 0) (hb2 : boostB2 ps ≠ 0) :
    sumPx (boost_to_jet_rest_frame ps) = 0 ∧
      sumPy (boost_to_jet_rest_frame ps) = 0 ∧
      sumPz (boost_to_jet_rest_frame ps) = 0 ∧
      sumE (boost_to_jet_rest_frame ps) =
        boostGamma ps *
          ((sumE ps * sumE ps -
            (sumPx ps * sumPx ps + sumPy ps * sumPy ps + sumPz ps * sumPz ps)) /
              sumE ps) := by
  have hb2S := boostB2_eq ps hE0
  have hS : sumPx ps * sumPx ps + sumPy ps * sumPy ps + sumPz ps * sumPz ps ≠ 0 := by
    intro h
    exact hb2 (by rw [hb2S, h, zero_div])
  have hboost : boost_to_jet_rest_frame ps =
      ps.map fun p =>
        ⟨boostGamma ps * (p.E - boostBp ps p),
         p.px + boostBx ps * boostCoef ps p,
         p.py + boostBy ps * boostCoef ps p,
         p.pz + boostBz ps * boostCoef ps p⟩ := by
    unfold boost_to_jet_rest_frame
    rw [if_neg hne, if_neg hb2]
  refine ⟨?_, ?_, ?_, ?_⟩
  · unfold sumPx
    rw [hboost, List.map_map]
    have hfun : (FourVector.px ∘ fun p : FourVector =>
        (⟨boostGamma ps * (p.E - boostBp ps p),
          p.px + boostBx ps * boostCoef ps p,
          p.py + boostBy ps * boostCoef ps p,
          p.pz + boostBz ps * boostCoef ps p⟩ : FourVector)) =
        fun p : FourVector =>
          (-(boostBx ps * boostGamma ps)) * p.E +
            (1 + boostBx ps * ((boostGamma ps - 1) * boostBx ps / boostB2 ps)) * p.px +
            (boostBx ps * ((boostGamma ps - 1) * boostBy ps / boostB2 ps)) * p.py +
            (boostBx ps * ((boostGamma ps - 1) * boostBz ps / boostB2 ps)) * p.pz := by
      funext p
      unfold boostCoef boostBp
      simp only [Function.comp]
      ring
    rw [hfun, sum_map_linear, hb2S]
    unfold boostBx boostBy boostBz
    field_simp
    try ring
  · unfold sumPy
    rw [hboost, List.map_map]
    have hfun : (FourVector.py ∘ fun p : FourVector =>
        (⟨boostGamma ps * (p.E - boostBp ps p),
          p.px + boostBx ps * boostCoef ps p,
          p.py + boostBy ps * boostCoef ps p,
          p.pz + boostBz ps * boostCoef ps p⟩ : FourVector)) =
        fun p : FourVector =>
          (-(boostBy ps * boostGamma ps)) * p.E +
            (boostBy ps * ((boostGamma ps - 1) * boostBx ps / boostB2 ps)) * p.px +
            (1 + boostBy ps * ((boostGamma ps - 1) * boostBy ps / boostB2 ps)) * p.py +
            (boostBy ps * ((boostGamma ps - 1) * boostBz ps / boostB2 ps)) * p.pz := by
      funext p
      unfold boostCoef boostBp
      simp only [Function.comp]
      ring
    rw [hfun, sum_map_linear, hb2S]
    unfold boostBx boostBy boostBz
    field_simp
    try ring
  · unfold sumPz
    rw [hboost, List.map_map]
    have hfun : (FourVector.pz ∘ fun p : FourVector =>
        (⟨boostGamma ps * (p.E - boostBp ps p),
          p.px + boostBx ps * boostCoef ps p,
          p.py + boostBy ps * boostCoef ps p,
          p.pz + boostBz ps * boostCoef ps p⟩ : FourVector)) =
        fun p : FourVector =>
          (-(boostBz ps * boostGamma ps)) * p.E +
            (boostBz ps * ((boostGamma ps - 1) * boostBx ps / boostB2 ps)) * p.px +
            (boostBz ps * ((boostGamma ps - 1) * boostBy ps / boostB2 ps)) * p.py +
            (1 + boostBz ps * ((boostGamma ps - 1) * boostBz ps / boostB2 ps)) * p.pz := by
      funext p
      unfold boostCoef boostBp
      simp only [Function.comp]
      ring
    rw [hfun, sum_map_linear, hb2S]
    unfold boostBx boostBy boostBz
    field_simp
    try ring
  · unfold sumE
    rw [hboost, List.map_map]
    have hfun : (FourVector.E ∘ fun p : FourVector =>
        (⟨boostGamma ps * (p.E - boostBp ps p),
          p.px + boostBx ps * boostCoef ps p,
          p.py + boostBy ps * boostCoef ps p,
          p.pz + boostBz ps * boostCoef ps p⟩ : FourVector)) =
        fun p : FourVector =>
          boostGamma ps * p.E + (-(boostGamma ps * boostBx ps)) * p.px +
            (-(boostGamma ps * boostBy ps)) * p.py +
            (-(boostGamma ps * boostBz ps)) * p.pz := by
      funext p
      unfold boostBp
      simp only [Function.comp]
      ring
    rw [hfun, sum_map_linear]
    have hE0m : (List.map FourVector.E ps).sum ≠ 0 := hE0
    unfold boostBx boostBy boostBz
    simp only [sumE, sumPx, sumPy, sumPz]
    field_simp
    try ring

/-- C5: for every constituent set whose aggregate is future-pointing
(positive total energy) and below the lightlike clamp
(`|beta|^2 <= 1 - 1e-10`, the well-conditioned and near-lightlike regimes),
the rest-frame boost post-condition holds: the summed boosted three-momentum
has magnitude within 1e-9 of 0 (here exactly 0 in real arithmetic) and the
invariant mass of the summed four-momentum is preserved to the same
tolerance; an empty input gives an empty result and a residual of exactly
0. -/
theorem C5_rest_frame_boost (ps : List FourVector)
    (hE : 0 < sumE ps)
    (hb : sumPx ps * sumPx ps + sumPy ps * sumPy ps + sumPz ps * sumPz ps ≤
      (1 - 1e-10) * (sumE ps * sumE ps)) :
    rest_frame_momentum_residual ps ≤ 1e-9 ∧
      |FourVector.mass (jetAggregate (boost_to_jet_rest_frame ps)) -
          FourVector.mass (jetAggregate ps)| ≤ 1e-9 ∧
      boost_to_jet_rest_frame [] = [] ∧
      rest_frame_momentum_residual [] = 0 := by
  have hE0 : sumE ps ≠ 0 := ne_of_gt hE
  have hne : ps ≠ [] := by
    intro h
    rw [h] at hE
    simp [sumE] at hE
  have hb2S := boostB2_eq ps hE0
  have hee : 0 < sumE ps * sumE ps := mul_pos hE hE
  have hD : 0 < sumE ps * sumE ps -
      (sumPx ps * sumPx ps + sumPy ps * sumPy ps + sumPz ps * sumPz ps) := by
    nlinarith [hee]
  by_cases hb2 : boostB2 ps = 0
  · have hbeq : boost_to_jet_rest_frame ps = ps := by
      unfold boost_to_jet_rest_frame
      rw [if_neg hne, if_pos hb2]
    have hS0 : sumPx ps * sumPx ps + sumPy ps * sumPy ps + sumPz ps * sumPz ps
        = 0 := by
      have h' : (sumPx ps * sumPx ps + sumPy ps * sumPy ps +
          sumPz ps * sumPz ps) / (sumE ps * sumE ps) = 0 := by
        rw [← hb2S, hb2]
      rcases div_eq_zero_iff.mp h' with h | h
      · exact h
      · exact absurd h (ne_of_gt hee)
    refine ⟨?_, ?_, by simp [boost_to_jet_rest_frame],
      by simp [rest_frame_momentum_residual]⟩
    · unfold rest_frame_momentum_residual
      rw [if_neg hne, hbeq, hS0, Real.sqrt_zero]
      norm_num
    · rw [hbeq, sub_self, abs_zero]
      norm_num
  · obtain ⟨hpx, hpy, hpz, hE'⟩ := boost_sums ps hne hE0 hb2
    refine ⟨?_, ?_, by simp [boost_to_jet_rest_frame],
      by simp [rest_frame_momentum_residual]⟩
    · unfold rest_frame_momentum_residual
      rw [if_neg hne, hpx, hpy, hpz]
      rw [show (0 : ℝ) * 0 + 0 * 0 + 0 * 0 = 0 by ring, Real.sqrt_zero]
      norm_num
    · have hqne : boost_to_jet_rest_frame ps ≠ [] := by
        unfold boost_to_jet_rest_frame
        rw [if_neg hne, if_neg hb2]
        simpa using hne
      have hagg_q : jetAggregate (boost_to_jet_rest_frame ps) =
          ⟨sumE (boost_to_jet_rest_frame ps), sumPx (boost_to_jet_rest_frame ps),
           sumPy (boost_to_jet_rest_frame ps),
           sumPz (boost_to_jet_rest_frame ps)⟩ := by
        unfold jetAggregate
        rw [if_neg hqne]
        rfl
      have hagg_p : jetAggregate ps = ⟨sumE ps, sumPx ps, sumPy ps, sumPz ps⟩ := by
        unfold jetAggregate
        rw [if_neg hne]
        rfl
      have hmin : min (boostB2 ps) (1 - 1e-10) = boostB2 ps := by
        apply min_eq_left
        rw [hb2S, div_le_iff₀ hee]
        linarith [hb]
      have h1mb2 : 1 - boostB2 ps =
          (sumE ps * sumE ps -
            (sumPx ps * sumPx ps + sumPy ps * sumPy ps + sumPz ps * sumPz ps)) /
              (sumE ps * sumE ps) := by
        rw [hb2S]
        field_simp
      have hgam : boostGamma ps =
          sumE ps / Real.sqrt (sumE ps * sumE ps -
            (sumPx ps * sumPx ps + sumPy ps * sumPy ps + sumPz ps * sumPz ps)) := by
        unfold boostGamma
        rw [hmin, h1mb2, Real.sqrt_div hD.le, Real.sqrt_mul_self hE.le, one_div_div]
      have hA : boostGamma ps *
          ((sumE ps * sumE ps -
            (sumPx ps * sumPx ps + sumPy ps * sumPy ps + sumPz ps * sumPz ps)) /
              sumE ps) =
          Real.sqrt (sumE ps * sumE ps -
            (sumPx ps * sumPx ps + sumPy ps * sumPy ps + sumPz ps * sumPz ps)) := by
        rw [hgam, div_mul_div_comm,
          mul_comm (sumE ps) (sumE ps * sumE ps -
            (sumPx ps * sumPx ps + sumPy ps * sumPy ps + sumPz ps * sumPz ps)),
          mul_div_mul_right _ _ hE0, Real.div_sqrt]
      rw [hagg_q, hagg_p, hpx, hpy, hpz, hE', hA]
      have hmq : FourVector.mass
          ⟨Real.sqrt (sumE ps * sumE ps -
            (sumPx ps * sumPx ps + sumPy ps * sumPy ps + sumPz ps * sumPz ps)),
           0, 0, 0⟩ =
          Real.sqrt (sumE ps * sumE ps -
            (sumPx ps * sumPx ps + sumPy ps * sumPy ps + sumPz ps * sumPz ps)) := by
        unfold FourVector.mass FourVector.dot
        simp only [mul_zero, sub_zero]
        rw [Real.mul_self_sqrt hD.le, max_eq_left hD.le]
      have hmp : FourVector.mass ⟨sumE ps, sumPx ps, sumPy ps, sumPz ps⟩ =
          Real.sqrt (sumE ps * sumE ps -
            (sumPx ps * sumPx ps + sumPy ps * sumPy ps + sumPz ps * sumPz ps)) := by
        unfold FourVector.mass FourVector.dot
        rw [show sumE ps * sumE ps - sumPx ps * sumPx ps - sumPy ps * sumPy ps -
            sumPz ps * sumPz ps =
            sumE ps * sumE ps -
              (sumPx ps * sumPx ps + sumPy ps * sumPy ps + sumPz ps * sumPz ps)
          from by ring, max_eq_left hD.le]
      rw [hmq, hmp, sub_self, abs_zero]
      norm_num

/-- C5 witness: the two back-to-back constituents `(2,1,0,0)` and
`(2,-1,0,0)` have positive total energy and zero aggregate three-momentum,
so the boost hypotheses hold; the residual is within 1e-9 and the invariant
mass is preserved to 1e-9, and the empty-input clauses hold. -/
theorem C5_rest_frame_boost_witness :
    rest_frame_momentum_residual
        [(⟨2, 1, 0, 0⟩ : FourVector), ⟨2, -1, 0, 0⟩] ≤ 1e-9 ∧
      |FourVector.mass (jetAggregate (boost_to_jet_rest_frame
          [(⟨2, 1, 0, 0⟩ : FourVector), ⟨2, -1, 0, 0⟩])) -
        FourVector.mass (jetAggregate
          [(⟨2, 1, 0, 0⟩ : FourVector), ⟨2, -1, 0, 0⟩])| ≤ 1e-9 ∧
      boost_to_jet_rest_frame [] = [] ∧
      rest_frame_momentum_residual [] = 0 :=
  C5_rest_frame_boost [⟨2, 1, 0, 0⟩, ⟨2, -1, 0, 0⟩]
    (by norm_num [sumE])
    (by norm_num [sumPx, sumPy, sumPz, sumE])

end JetObsMC
